import Mathlib

set_option linter.unusedSectionVars false

/-!
Shallow embedding of the Gauss-Seidel ("successive displacements") power-flow
solver from the Ward (1956) notebook.  The numeric kernel (current injection,
power computation, the two 2x2 voltage corrections, the sweep loop, the
flat-start initialization and the final extraction) is translated into pure
Lean functions.  Floating-point arithmetic is modelled by exact field
arithmetic over a field `K` (instantiated at `ℚ` for computations and at `ℝ`
where the initialization's exponential is involved).  `np.linalg.inv` on an
exactly singular matrix raises `LinAlgError`; this is modelled by `Option`.
The two exceptions the iteration can raise are modelled by `SolveError`.
-/

namespace Ward1956

/-- Voltage state: the real and imaginary components of the nodal voltages,
mirroring the notebook's separate arrays `E_real` and `E_imag`. -/
structure VState (K : Type) where
  er : ℕ → K
  ei : ℕ → K

variable {K : Type} [Field K] [DecidableEq K]

/-- `compute_I` from the notebook: the nodal current injection at bus `k`.
The Python loop runs `for m in range(Y.shape[0])` where `Y` is the *global*
admittance matrix, not one of the function's parameters; the loop bound `nY`
is therefore an explicit extra input of the embedding. -/
def compute_I (G B : ℕ → ℕ → K) (E_real E_imag : ℕ → K) (k : ℕ) (nY : ℕ) : K × K :=
  (List.range nY).foldl
    (fun acc m =>
      (acc.1 + (G k m * E_real m - B k m * E_imag m),
       acc.2 + (G k m * E_imag m + B k m * E_real m)))
    (0, 0)

/-- `compute_PQ` from the notebook: the nodal power injection `S = P + jQ`
at a bus, from the current injection and the voltage at that bus. -/
def compute_PQ (i_real i_imag e_real e_imag : K) : K × K :=
  (i_real * e_real + i_imag * e_imag, i_real * e_imag - i_imag * e_real)

/-- A 2x2 matrix, as built by `np.array([[a00, a01], [a10, a11]])`. -/
structure Mat2 (K : Type) where
  a00 : K
  a01 : K
  a10 : K
  a11 : K
deriving DecidableEq

/-- Determinant of a 2x2 matrix. -/
def det2 (A : Mat2 K) : K := A.a00 * A.a11 - A.a01 * A.a10

/-- `np.linalg.inv` on a 2x2 matrix: raises (here: `none`) exactly when the
matrix is singular, otherwise returns the inverse.  No tolerance is involved:
a nonzero determinant, however small, succeeds. -/
def linalg_inv2 (A : Mat2 K) : Option (Mat2 K) :=
  if det2 A = 0 then none
  else some ⟨A.a11 / det2 A, -A.a01 / det2 A, -A.a10 / det2 A, A.a00 / det2 A⟩

/-- `np.dot` of a 2x2 matrix with a 2-vector. -/
def mat2_mul_vec (A : Mat2 K) (b : K × K) : K × K :=
  (A.a00 * b.1 + A.a01 * b.2, A.a10 * b.1 + A.a11 * b.2)

/-- The 2x2 matrix `A` assembled by `compute_E_correction_load` (its four
entries `A_00`, `A_01`, `A_10`, `A_11`, verbatim from the notebook). -/
def A_load (i_real i_imag e_real e_imag : K) (B G : ℕ → ℕ → K) (k : ℕ) : Mat2 K :=
  ⟨e_real * G k k + e_imag * B k k + i_real,
   - e_real * B k k + e_imag * G k k + i_imag,
   - e_real * B k k + e_imag * G k k - i_imag,
   - e_real * G k k + e_imag * B k k + i_real⟩

/-- `compute_E_correction_load` from the notebook: the corrective voltage at a
load (PQ) bus, `x = inv(A) . [dp; dq]`; `none` models the `LinAlgError`
raised by `np.linalg.inv` on an exactly singular `A`. -/
def compute_E_correction_load (p_specified q_specified i_real i_imag e_real e_imag : K)
    (B G : ℕ → ℕ → K) (k : ℕ) : Option (K × K) :=
  let pq := compute_PQ i_real i_imag e_real e_imag
  let dp := p_specified - pq.1
  let dq := q_specified - pq.2
  (linalg_inv2 (A_load i_real i_imag e_real e_imag B G k)).map
    (fun Ainv => mat2_mul_vec Ainv (dp, dq))

/-- The 2x2 matrix `A` assembled by `compute_E_correction_generator`; its
second row is `[2 * e_real, 2 * e_imag]`. -/
def A_gen (i_real i_imag e_real e_imag : K) (B G : ℕ → ℕ → K) (k : ℕ) : Mat2 K :=
  ⟨e_real * G k k + e_imag * B k k + i_real,
   - e_real * B k k + e_imag * G k k + i_imag,
   2 * e_real,
   2 * e_imag⟩

/-- `compute_E_correction_generator` from the notebook: the corrective voltage
at a generator (PV) bus.  The reactive power returned by `compute_PQ` is
discarded; the second mismatch is taken in squared-magnitude space,
`de_square = e_magn_specified^2 - (e_real^2 + e_imag^2)`. -/
def compute_E_correction_generator (p_specified e_magn_specified i_real i_imag e_real e_imag : K)
    (B G : ℕ → ℕ → K) (k : ℕ) : Option (K × K) :=
  let p := (compute_PQ i_real i_imag e_real e_imag).1
  let dp := p_specified - p
  let e_magn_square := e_real ^ 2 + e_imag ^ 2
  let de_square := e_magn_specified ^ 2 - e_magn_square
  (linalg_inv2 (A_gen i_real i_imag e_real e_imag B G k)).map
    (fun Ainv => mat2_mul_vec Ainv (dp, de_square))

/-- The two exceptions the notebook's iteration can raise: `LinAlgError` from
`np.linalg.inv` on a singular correction matrix, and `NotImplementedError`
from the bus-type dispatch.  Neither carries a bus index or an iteration
number. -/
inductive SolveError : Type
  | linAlgError : SolveError
  | notImplementedError : SolveError
deriving DecidableEq

/-- The bus-type dispatch of the iteration loop: if `Ps[k]` and `Qs[k]` are
both present, the load correction is used; otherwise, if `Ps[k]` and
`Es_magn[k]` are both present, the generator correction is used; otherwise
`NotImplementedError` is raised.  A singular correction system surfaces the
`LinAlgError` of `np.linalg.inv`. -/
def bus_correction (G B : ℕ → ℕ → K) (Ps Qs Es_magn : ℕ → Option K) (nY : ℕ)
    (st : VState K) (k : ℕ) : Except SolveError (K × K) :=
  let i := compute_I G B st.er st.ei k nY
  match Ps k, Qs k with
  | some p, some q =>
      match compute_E_correction_load p q i.1 i.2 (st.er k) (st.ei k) B G k with
      | some de => Except.ok de
      | none => Except.error SolveError.linAlgError
  | _, _ =>
      match Ps k, Es_magn k with
      | some p, some em =>
          match compute_E_correction_generator p em i.1 i.2 (st.er k) (st.ei k) B G k with
          | some de => Except.ok de
          | none => Except.error SolveError.linAlgError
      | _, _ => Except.error SolveError.notImplementedError

/-- One per-bus update of the sweep: `E_real[k] += de_real` and
`E_imag[k] += de_imag` for the dispatched correction `de`. -/
def update_bus (G B : ℕ → ℕ → K) (Ps Qs Es_magn : ℕ → Option K) (nY : ℕ)
    (st : VState K) (k : ℕ) : Except SolveError (VState K) :=
  (bus_correction G B Ps Qs Es_magn nY st k).map
    (fun de => ⟨Function.update st.er k (st.er k + de.1),
                Function.update st.ei k (st.ei k + de.2)⟩)

/-- Process a list of buses in order.  A raised exception aborts the loop; the
in-place updates already applied to earlier buses persist in the returned
state. -/
def run_buses (G B : ℕ → ℕ → K) (Ps Qs Es_magn : ℕ → Option K) (nY : ℕ) :
    VState K → List ℕ → VState K × Option SolveError
  | st, [] => (st, none)
  | st, k :: ks =>
      match update_bus G B Ps Qs Es_magn nY st k with
      | Except.ok st2 => run_buses G B Ps Qs Es_magn nY st2 ks
      | Except.error e => (st, some e)

/-- The outer iteration: `n_iters` sweeps, each visiting the non-slack buses
`range(1, n)` in ascending order. -/
def run_iters (G B : ℕ → ℕ → K) (Ps Qs Es_magn : ℕ → Option K) (n : ℕ) :
    VState K → ℕ → VState K × Option SolveError
  | st, 0 => (st, none)
  | st, Nat.succ m =>
      match run_buses G B Ps Qs Es_magn n st (List.range' 1 (n - 1)) with
      | (st2, none) => run_iters G B Ps Qs Es_magn n st2 m
      | (st2, some e) => (st2, some e)

/-- Flat-start initialization cell:
`E_real = np.array([slack_E.real] + [1.] * (n-1))` and
`E_imag = np.array([slack_E.imag] + [0.] * (n-1))`. -/
def initState (slack_re slack_im : K) : VState K :=
  ⟨fun m => if m = 0 then slack_re else 1,
   fun m => if m = 0 then slack_im else 0⟩

/-- Full solve over a field `K`: flat-start initialization followed by the
sweeps, taking the slack voltage components as already-computed inputs. -/
def solve_ward (G B : ℕ → ℕ → K) (Ps Qs Es_magn : ℕ → Option K)
    (slack_re slack_im : K) (n n_iters : ℕ) : VState K × Option SolveError :=
  run_iters G B Ps Qs Es_magn n (initState slack_re slack_im) n_iters

/-- `slack_E = Es_magn[0] * np.exp(Es_ang[0])` from the notebook.  `np.exp`
is applied to the plain angle, not to `j` times the angle, so the result is
the real number `magn * e^ang` (with zero imaginary part). -/
noncomputable def slack_E (magn ang : ℝ) : ℂ := (magn : ℂ) * Complex.exp (ang : ℂ)

/-- Modelled from the spec: the slack bus's "specified complex value"
`|E|_slack * e^(j * theta_slack)`, with real part `|E| * cos(theta)` and
imaginary part `|E| * sin(theta)`. -/
noncomputable def slack_E_specified (magn ang : ℝ) : ℂ :=
  (magn : ℂ) * Complex.exp ((ang : ℂ) * Complex.I)

/-- The notebook's solve over the reals: the slack entry of the flat start is
computed from the specified magnitude and angle via `slack_E`. -/
noncomputable def solve_notebook (G B : ℕ → ℕ → ℝ) (Ps Qs Es_magn : ℕ → Option ℝ)
    (magn ang : ℝ) (n n_iters : ℕ) : VState ℝ × Option SolveError :=
  solve_ward G B Ps Qs Es_magn (slack_E magn ang).re (slack_E magn ang).im n n_iters

/-- Final-solution cell: the list of per-bus active powers `P`, each recomputed
from the final voltage state via `compute_I` and `compute_PQ`. -/
def extraction_P (G B : ℕ → ℕ → K) (st : VState K) (n : ℕ) : List K :=
  (List.range n).map fun k =>
    let i := compute_I G B st.er st.ei k n
    (compute_PQ i.1 i.2 (st.er k) (st.ei k)).1

/-- Final-solution cell: `Final loss = np.sum(P)`. -/
def final_loss (G B : ℕ → ℕ → K) (st : VState K) (n : ℕ) : K :=
  (extraction_P G B st n).sum

/-- A concrete 3-bus conductance matrix used as a test input: row 1 couples
bus 1 to buses 0 and 1. -/
def Gex : ℕ → ℕ → ℚ := fun i j => if i = 1 ∧ j ≤ 1 then 1 else 0

/-- A concrete all-zero susceptance matrix. -/
def Bex : ℕ → ℕ → ℚ := fun _ _ => 0

/-- Concrete active-power specifications: only bus 1 has `P` specified. -/
def Psex : ℕ → Option ℚ := fun k => if k = 1 then some 3 else none

/-- Concrete reactive-power specifications: only bus 1 has `Q` specified;
bus 2 is a non-slack bus matching neither the load nor the generator
pattern. -/
def Qsex : ℕ → Option ℚ := fun k => if k = 1 then some 0 else none

/-- Concrete voltage-magnitude specifications: only the slack bus 0. -/
def Esmex : ℕ → Option ℚ := fun k => if k = 0 then some 1 else none

/-- The flat-start state for the concrete example (slack magnitude 1,
angle 0). -/
def stex : VState ℚ := initState 1 0

/- ------------------------------------------------------------------ -/
/- Helper lemmas (shared between claims).                              -/
/- ------------------------------------------------------------------ -/

/-- The accumulation loop of `compute_I` computes the two row-times-vector
sums. -/
theorem compute_I_eq_sum (G B : ℕ → ℕ → K) (er ei : ℕ → K) (k n : ℕ) :
    compute_I G B er ei k n =
      (∑ m ∈ Finset.range n, (G k m * er m - B k m * ei m),
       ∑ m ∈ Finset.range n, (G k m * ei m + B k m * er m)) := by
  induction n with
  | zero => simp [compute_I]
  | succ n ih =>
    simp only [compute_I] at ih ⊢
    rw [List.range_succ, List.foldl_append, ih]
    simp only [List.foldl_cons, List.foldl_nil, Finset.sum_range_succ, Prod.mk.injEq]

/-- Summing a mapped `List.range` is summing over `Finset.range`. -/
theorem list_range_map_sum {M : Type} [AddCommMonoid M] (f : ℕ → M) (n : ℕ) :
    ((List.range n).map f).sum = ∑ i ∈ Finset.range n, f i := by
  induction n with
  | zero => simp
  | succ n ih =>
    rw [List.range_succ, List.map_append, List.sum_append, Finset.sum_range_succ, ih]
    simp

/-- When `np.linalg.inv` succeeds, multiplying the inverse into a right-hand
side yields an exact solution of the 2x2 system. -/
theorem linalg_inv2_solves {A Ainv : Mat2 K} (b : K × K)
    (h : linalg_inv2 A = some Ainv) :
    A.a00 * (mat2_mul_vec Ainv b).1 + A.a01 * (mat2_mul_vec Ainv b).2 = b.1
    ∧ A.a10 * (mat2_mul_vec Ainv b).1 + A.a11 * (mat2_mul_vec Ainv b).2 = b.2 := by
  rw [linalg_inv2] at h
  split at h
  · exact absurd h (by simp)
  · rename_i hd
    obtain rfl : (⟨A.a11 / det2 A, -A.a01 / det2 A, -A.a10 / det2 A, A.a00 / det2 A⟩ : Mat2 K)
        = Ainv := Option.some_inj.mp h
    constructor
    · show A.a00 * (A.a11 / det2 A * b.1 + -A.a01 / det2 A * b.2)
          + A.a01 * (-A.a10 / det2 A * b.1 + A.a00 / det2 A * b.2) = b.1
      field_simp
      rw [det2] at hd ⊢
      ring_nf
    · show A.a10 * (A.a11 / det2 A * b.1 + -A.a01 / det2 A * b.2)
          + A.a11 * (-A.a10 / det2 A * b.1 + A.a00 / det2 A * b.2) = b.2
      field_simp
      rw [det2] at hd ⊢
      ring_nf

/-- The code's slack initial value is the real number `magn * e^ang`. -/
theorem slack_E_re (magn ang : ℝ) : (slack_E magn ang).re = magn * Real.exp ang := by
  rw [slack_E, ← Complex.ofReal_exp, ← Complex.ofReal_mul, Complex.ofReal_re]

/-- The code's slack initial value has no imaginary part. -/
theorem slack_E_im (magn ang : ℝ) : (slack_E magn ang).im = 0 := by
  rw [slack_E, ← Complex.ofReal_exp, ← Complex.ofReal_mul, Complex.ofReal_im]

/-- Real part of the spec's specified complex slack voltage. -/
theorem slack_E_specified_re (magn ang : ℝ) :
    (slack_E_specified magn ang).re = magn * Real.cos ang := by
  rw [slack_E_specified, Complex.exp_mul_I, ← Complex.ofReal_cos, ← Complex.ofReal_sin]
  simp [Complex.mul_re, Complex.add_re, Complex.cos_ofReal_re, Complex.sin_ofReal_re]

/-- Imaginary part of the spec's specified complex slack voltage. -/
theorem slack_E_specified_im (magn ang : ℝ) :
    (slack_E_specified magn ang).im = magn * Real.sin ang := by
  rw [slack_E_specified, Complex.exp_mul_I, ← Complex.ofReal_cos, ← Complex.ofReal_sin]
  simp [Complex.mul_im, Complex.add_im, Complex.cos_ofReal_re, Complex.sin_ofReal_re]

/-- A bus whose specification matches neither the load pattern nor the
generator pattern makes the dispatch raise `NotImplementedError`. -/
theorem bus_correction_invalid (G B : ℕ → ℕ → K) (Ps Qs Es_magn : ℕ → Option K) (nY : ℕ)
    (st : VState K) (k : ℕ)
    (h : Ps k = none ∨ (Qs k = none ∧ Es_magn k = none)) :
    bus_correction G B Ps Qs Es_magn nY st k
      = Except.error SolveError.notImplementedError := by
  rcases h with hp | ⟨hq, he⟩
  · rw [bus_correction, hp]
  · rw [bus_correction, hq, he]
    cases Ps k <;> rfl

/-- A successful per-bus update leaves every entry other than `k` untouched. -/
theorem update_bus_ok_frame (G B : ℕ → ℕ → K) (Ps Qs Es_magn : ℕ → Option K) (nY : ℕ)
    (st st2 : VState K) (k : ℕ)
    (h : update_bus G B Ps Qs Es_magn nY st k = Except.ok st2)
    (j : ℕ) (hj : j ≠ k) : st2.er j = st.er j ∧ st2.ei j = st.ei j := by
  rw [update_bus] at h
  cases hbc : bus_correction G B Ps Qs Es_magn nY st k with
  | ok de =>
    rw [hbc] at h
    injection h with h2
    rw [← h2]
    exact ⟨Function.update_noteq hj _ _, Function.update_noteq hj _ _⟩
  | error e =>
    rw [hbc] at h
    exact absurd h (by simp [Except.map])

/-- Processing a list of nonzero bus indices never changes the slack entry
(index 0), whether or not an exception aborts the loop. -/
theorem run_buses_slack (G B : ℕ → ℕ → K) (Ps Qs Es_magn : ℕ → Option K) (nY : ℕ)
    (st : VState K) (ks : List ℕ) (hks : ∀ k ∈ ks, k ≠ 0) :
    (run_buses G B Ps Qs Es_magn nY st ks).1.er 0 = st.er 0
    ∧ (run_buses G B Ps Qs Es_magn nY st ks).1.ei 0 = st.ei 0 := by
  induction ks generalizing st with
  | nil => exact ⟨rfl, rfl⟩
  | cons a as ih =>
    rw [run_buses]
    cases hub : update_bus G B Ps Qs Es_magn nY st a with
    | ok st2 =>
      have hframe := update_bus_ok_frame G B Ps Qs Es_magn nY st st2 a hub 0
        (fun h0 => hks a (List.mem_cons_self a as) h0.symm)
      have htail := ih st2 (fun k hk => hks k (List.mem_cons_of_mem a hk))
      exact ⟨htail.1.trans hframe.1, htail.2.trans hframe.2⟩
    | error e => exact ⟨rfl, rfl⟩

/-- The outer iteration never changes the slack entry (index 0). -/
theorem run_iters_slack (G B : ℕ → ℕ → K) (Ps Qs Es_magn : ℕ → Option K) (n : ℕ)
    (st : VState K) (m : ℕ) :
    (run_iters G B Ps Qs Es_magn n st m).1.er 0 = st.er 0
    ∧ (run_iters G B Ps Qs Es_magn n st m).1.ei 0 = st.ei 0 := by
  induction m generalizing st with
  | zero => exact ⟨rfl, rfl⟩
  | succ m ih =>
    rw [run_iters]
    have hks : ∀ k ∈ List.range' 1 (n - 1), k ≠ 0 := by
      intro k hk
      have := (List.mem_range'_1.mp hk).1
      omega
    have hsweep := run_buses_slack G B Ps Qs Es_magn n st (List.range' 1 (n - 1)) hks
    cases hrb : run_buses G B Ps Qs Es_magn n st (List.range' 1 (n - 1)) with
    | mk st2 err =>
      rw [hrb] at hsweep
      cases err with
      | none =>
        have := ih st2
        exact ⟨this.1.trans hsweep.1, this.2.trans hsweep.2⟩
      | some e => exact ⟨hsweep.1, hsweep.2⟩

/- ------------------------------------------------------------------ -/
/- Claim theorems.                                                     -/
/- ------------------------------------------------------------------ -/

/-- C5: for every matrices `G`, `B`, every voltage state and every bus `k`,
`compute_I` returns the pair of sums
`i_real = Σ_m (G(k,m)·E_real(m) − B(k,m)·E_imag(m))` and
`i_imag = Σ_m (G(k,m)·E_imag(m) + B(k,m)·E_real(m))`, the sums running over
the matrix dimension `n` (which is the loop bound `Y.shape[0]` of the
program, where the global `Y = G + jB` has the same shape as `G` and `B`). -/
theorem C5_compute_I_formula (G B : ℕ → ℕ → ℚ) (E_real E_imag : ℕ → ℚ) (k n : ℕ) :
    compute_I G B E_real E_imag k n =
      (∑ m ∈ Finset.range n, (G k m * E_real m - B k m * E_imag m),
       ∑ m ∈ Finset.range n, (G k m * E_imag m + B k m * E_real m)) :=
  compute_I_eq_sum G B E_real E_imag k n

/-- C10: the outputs `(p, q)` of `compute_PQ` satisfy the exact identity
`p² + q² = (i_real² + i_imag²)·(e_real² + e_imag²)`, i.e. `|S| = |E|·|I|`
under exact arithmetic. -/
theorem C10_power_magnitude (i_real i_imag e_real e_imag : ℚ) :
    (compute_PQ i_real i_imag e_real e_imag).1 ^ 2
      + (compute_PQ i_real i_imag e_real e_imag).2 ^ 2
      = (i_real ^ 2 + i_imag ^ 2) * (e_real ^ 2 + e_imag ^ 2) := by
  simp only [compute_PQ]
  ring

/-- C8: the final loss computed by the extraction cell is the sum over all
buses `k` in `range n` (the slack bus `k = 0` included) of the active power
`P_k` recomputed from the final voltage state; the extraction is a pure
function of the state (in this embedding the state is not part of its
output, so it is not mutated). -/
theorem C8_total_loss (G B : ℕ → ℕ → ℚ) (st : VState ℚ) (n : ℕ) :
    final_loss G B st n
      = ∑ k ∈ Finset.range n,
          (compute_PQ (compute_I G B st.er st.ei k n).1 (compute_I G B st.er st.ei k n).2
            (st.er k) (st.ei k)).1 := by
  rw [final_loss, extraction_P]
  exact list_range_map_sum _ n

/-- C9: a successful per-bus update inside a sweep replaces exactly entry `k`
of the voltage state by its old value plus the dispatched correction, and
every other voltage entry is unchanged (the matrices `G`, `B` and the bus
specifications are read-only parameters of the update). -/
theorem C9_frame (G B : ℕ → ℕ → ℚ) (Ps Qs Es_magn : ℕ → Option ℚ) (nY : ℕ)
    (st : VState ℚ) (k : ℕ) (de : ℚ × ℚ)
    (h : bus_correction G B Ps Qs Es_magn nY st k = Except.ok de) :
    update_bus G B Ps Qs Es_magn nY st k
        = Except.ok ⟨Function.update st.er k (st.er k + de.1),
                     Function.update st.ei k (st.ei k + de.2)⟩
    ∧ ∀ j, j ≠ k →
        Function.update st.er k (st.er k + de.1) j = st.er j
        ∧ Function.update st.ei k (st.ei k + de.2) j = st.ei j := by
  constructor
  · rw [update_bus, h]
    rfl
  · exact fun j hj => ⟨Function.update_noteq hj _ _, Function.update_noteq hj _ _⟩

/-- Witness for C9: at the concrete 3-bus example, the correction at bus 1 is
`(1/3, 0)` and the update rewrites exactly entry 1. -/
theorem C9_frame_witness :
    bus_correction Gex Bex Psex Qsex Esmex 3 stex 1 = Except.ok (1/3, 0)
    ∧ (update_bus Gex Bex Psex Qsex Esmex 3 stex 1
        = Except.ok ⟨Function.update stex.er 1 (stex.er 1 + (1/3 : ℚ)),
                     Function.update stex.ei 1 (stex.ei 1 + 0)⟩
      ∧ ∀ j, j ≠ 1 →
          Function.update stex.er 1 (stex.er 1 + (1/3 : ℚ)) j = stex.er j
          ∧ Function.update stex.ei 1 (stex.ei 1 + (0 : ℚ)) j = stex.ei j) := by
  have hcalc : bus_correction Gex Bex Psex Qsex Esmex 3 stex 1 = Except.ok (1/3, 0) := by
    norm_num [bus_correction, compute_I, List.range_succ, Gex, Bex, Psex, Qsex, Esmex,
      stex, initState, compute_E_correction_load, A_load, det2, linalg_inv2,
      mat2_mul_vec, compute_PQ]
  exact ⟨hcalc, C9_frame Gex Bex Psex Qsex Esmex 3 stex 1 (1/3, 0) hcalc⟩

/-- C6: the generator-bus correction takes its second mismatch in
squared-magnitude space (`|E_spec|² − (e_real² + e_imag²)`, not
`|E_spec| − |E|`), uses the Jacobian second row `[2·e_real, 2·e_imag]`, and
whenever it returns a correction `x`, that `x` is an exact solution of
`A·x = [dp; d(|E|²)]` with `dp = p_specified − p` and `p` the active power of
`compute_PQ` (whose reactive component is discarded). -/
theorem C6_generator_correction (p_specified e_magn_specified i_real i_imag e_real e_imag : ℚ)
    (B G : ℕ → ℕ → ℚ) (k : ℕ) (x0 x1 : ℚ)
    (h : compute_E_correction_generator p_specified e_magn_specified
          i_real i_imag e_real e_imag B G k = some (x0, x1)) :
    (A_gen i_real i_imag e_real e_imag B G k).a10 = 2 * e_real
    ∧ (A_gen i_real i_imag e_real e_imag B G k).a11 = 2 * e_imag
    ∧ (A_gen i_real i_imag e_real e_imag B G k).a00 * x0
        + (A_gen i_real i_imag e_real e_imag B G k).a01 * x1
        = p_specified - (compute_PQ i_real i_imag e_real e_imag).1
    ∧ 2 * e_real * x0 + 2 * e_imag * x1
        = e_magn_specified ^ 2 - (e_real ^ 2 + e_imag ^ 2) := by
  simp only [compute_E_correction_generator] at h
  cases hinv : linalg_inv2 (A_gen i_real i_imag e_real e_imag B G k) with
  | none => rw [hinv] at h; exact absurd h (by simp)
  | some Ainv =>
    rw [hinv] at h
    simp only [Option.map_some'] at h
    have hsol := linalg_inv2_solves
      (p_specified - (compute_PQ i_real i_imag e_real e_imag).1,
       e_magn_specified ^ 2 - (e_real ^ 2 + e_imag ^ 2)) hinv
    rw [Option.some_inj] at h
    rw [h] at hsol
    exact ⟨rfl, rfl, hsol.1, hsol.2⟩

/-- Witness for C6: a concrete generator-bus correction that succeeds and
solves its 2x2 system. -/
theorem C6_generator_correction_witness :
    compute_E_correction_generator 1 2 0 0 1 1 (fun _ _ => (1:ℚ)) (fun _ _ => 1) 0
        = some (1/2, 1/2)
    ∧ ((A_gen 0 0 1 1 (fun _ _ => (1:ℚ)) (fun _ _ => 1) 0).a10 = 2 * 1
      ∧ (A_gen 0 0 1 1 (fun _ _ => (1:ℚ)) (fun _ _ => 1) 0).a11 = 2 * 1
      ∧ (A_gen 0 0 1 1 (fun _ _ => (1:ℚ)) (fun _ _ => 1) 0).a00 * (1/2)
          + (A_gen 0 0 1 1 (fun _ _ => (1:ℚ)) (fun _ _ => 1) 0).a01 * (1/2)
          = 1 - (compute_PQ 0 0 1 1).1
      ∧ 2 * 1 * (1/2) + 2 * 1 * (1/2) = (2:ℚ) ^ 2 - ((1:ℚ) ^ 2 + (1:ℚ) ^ 2)) := by
  have hcalc : compute_E_correction_generator 1 2 0 0 1 1 (fun _ _ => (1:ℚ)) (fun _ _ => 1) 0
      = some (1/2, 1/2) := by
    norm_num [compute_E_correction_generator, A_gen, det2, linalg_inv2, mat2_mul_vec,
      compute_PQ]
  exact ⟨hcalc, C6_generator_correction 1 2 0 0 1 1 (fun _ _ => 1) (fun _ _ => 1) 0
    (1/2) (1/2) hcalc⟩

/-- C4 counterexample: `compute_I` is not a function of only
`G, B, E_real, E_imag, k` — with all five arguments identical, its result
still depends on the dimension of the global matrix `Y`, which the source
uses as the loop bound (`for m in range(Y.shape[0])`). -/
theorem C4_counterexample :
    compute_I (fun _ _ => (1:ℚ)) (fun _ _ => 0) (fun _ => 1) (fun _ => 0) 0 1
      ≠ compute_I (fun _ _ => (1:ℚ)) (fun _ _ => 0) (fun _ => 1) (fun _ => 0) 0 2 := by
  rw [compute_I_eq_sum, compute_I_eq_sum]
  simp [Finset.sum_range_succ, Prod.ext_iff]

/-- C4 (amended): `compute_I` is pure and deterministic given its arguments
together with the global loop bound `nY`: its result depends on exactly the
entries `G(k,m)`, `B(k,m)`, `E_real(m)`, `E_imag(m)` for `m < nY`, and on no
other state. -/
theorem C4_amended_pure (G G2 B B2 : ℕ → ℕ → ℚ) (er er2 ei ei2 : ℕ → ℚ) (k nY : ℕ)
    (hG : ∀ m, m < nY → G k m = G2 k m) (hB : ∀ m, m < nY → B k m = B2 k m)
    (her : ∀ m, m < nY → er m = er2 m) (hei : ∀ m, m < nY → ei m = ei2 m) :
    compute_I G B er ei k nY = compute_I G2 B2 er2 ei2 k nY := by
  rw [compute_I_eq_sum, compute_I_eq_sum]
  refine Prod.ext ?_ ?_
  · show (∑ m ∈ Finset.range nY, (G k m * er m - B k m * ei m))
        = ∑ m ∈ Finset.range nY, (G2 k m * er2 m - B2 k m * ei2 m)
    exact Finset.sum_congr rfl fun m hm => by
      rw [hG m (Finset.mem_range.mp hm), hB m (Finset.mem_range.mp hm),
        her m (Finset.mem_range.mp hm), hei m (Finset.mem_range.mp hm)]
  · show (∑ m ∈ Finset.range nY, (G k m * ei m + B k m * er m))
        = ∑ m ∈ Finset.range nY, (G2 k m * ei2 m + B2 k m * er2 m)
    exact Finset.sum_congr rfl fun m hm => by
      rw [hG m (Finset.mem_range.mp hm), hB m (Finset.mem_range.mp hm),
        her m (Finset.mem_range.mp hm), hei m (Finset.mem_range.mp hm)]

/-- Witness for C4 (amended): two syntactically different input families that
agree below the bound give identical injections. -/
theorem C4_amended_pure_witness :
    (∀ m, m < 2 → (fun _ _ => (1:ℚ)) 0 m = (fun _ (j : ℕ) => if j = 5 then 0 else (1:ℚ)) 0 m)
    ∧ compute_I (fun _ _ => (1:ℚ)) (fun _ _ => 0) (fun _ => 1) (fun _ => 0) 0 2
        = compute_I (fun _ (j : ℕ) => if j = 5 then 0 else (1:ℚ)) (fun _ _ => 0)
            (fun _ => 1) (fun _ => 0) 0 2 := by
  have hG : ∀ m, m < 2 →
      (fun _ _ => (1:ℚ)) 0 m = (fun _ (j : ℕ) => if j = 5 then 0 else (1:ℚ)) 0 m := by
    intro m hm
    have : m ≠ 5 := by omega
    simp [this]
  exact ⟨hG, C4_amended_pure (fun _ _ => 1) (fun _ (j : ℕ) => if j = 5 then 0 else 1)
    (fun _ _ => 0) (fun _ _ => 0) (fun _ => 1) (fun _ => 1) (fun _ => 0) (fun _ => 0) 0 2
    hG (fun _ _ => rfl) (fun _ _ => rfl) (fun _ _ => rfl)⟩

/-- C2 counterexample: at a concrete load-bus input whose correction matrix
has determinant `10⁻³⁰` — nonzero but far below any plausible numerical
tolerance (e.g. `10⁻¹⁶`) — the code does not fail at all: it silently
returns the finite but enormous correction `(−1, 10¹⁵)`. -/
theorem C2_counterexample :
    compute_E_correction_load 0 0 1 (1/10^15) 1 0 (fun _ _ => (0:ℚ)) (fun _ _ => 1) 0
        = some (-1, 10^15)
    ∧ det2 (A_load 1 (1/10^15) 1 0 (fun _ _ => (0:ℚ)) (fun _ _ => 1) 0) = 1/10^30
    ∧ (0:ℚ) < 1/10^30
    ∧ (1:ℚ)/10^30 < 1/10^16 := by
  norm_num [compute_E_correction_load, A_load, det2, linalg_inv2, mat2_mul_vec, compute_PQ]

/-- C2 (amended): the correction operations fail exactly when the 2x2 matrix
`A` is *exactly* singular (`det(A) = 0`), in which case `np.linalg.inv`
raises its generic error (carrying no bus index or iteration number); a
determinant below a numerical tolerance but nonzero does not fail. -/
theorem C2_amended_singular_iff (p q em i_real i_imag e_real e_imag : ℚ)
    (B G : ℕ → ℕ → ℚ) (k : ℕ) :
    (compute_E_correction_load p q i_real i_imag e_real e_imag B G k = none
        ↔ det2 (A_load i_real i_imag e_real e_imag B G k) = 0)
    ∧ (compute_E_correction_generator p em i_real i_imag e_real e_imag B G k = none
        ↔ det2 (A_gen i_real i_imag e_real e_imag B G k) = 0) := by
  constructor
  · rw [compute_E_correction_load, linalg_inv2]
    split
    · simpa
    · simpa
  · rw [compute_E_correction_generator, linalg_inv2]
    split
    · simpa
    · simpa

/-- C3 counterexample: on a 3-bus configuration whose bus 2 matches neither
the load nor the generator pattern, `solve` does fail — but only lazily,
with `NotImplementedError`, after bus 1 of the first sweep has already been
corrected: the returned voltage state has `E_real[1] = 4/3`, no longer the
flat-start value 1. -/
theorem C3_counterexample :
    (solve_ward Gex Bex Psex Qsex Esmex 1 0 3 1).2 = some SolveError.notImplementedError
    ∧ (solve_ward Gex Bex Psex Qsex Esmex 1 0 3 1).1.er 1 = 4/3
    ∧ (initState (1:ℚ) 0).er 1 = 1
    ∧ (4/3 : ℚ) ≠ 1 := by
  norm_num [solve_ward, run_iters, run_buses, update_bus, bus_correction, initState, stex,
    Gex, Bex, Psex, Qsex, Esmex, compute_I, List.range_succ, compute_E_correction_load,
    A_load, det2, linalg_inv2, mat2_mul_vec, compute_PQ, Function.update, Except.map]

/-- C3 (amended): validation is lazy, not eager.  If the sweep processes some
prefix of buses successfully and then reaches a bus matching neither the
load pattern nor the generator pattern, it stops there with
`NotImplementedError`, returning the state as already updated by that
prefix. -/
theorem C3_amended_lazy (G B : ℕ → ℕ → ℚ) (Ps Qs Es_magn : ℕ → Option ℚ) (nY : ℕ)
    (st st1 : VState ℚ) (ks1 : List ℕ) (k : ℕ) (ks2 : List ℕ)
    (h1 : run_buses G B Ps Qs Es_magn nY st ks1 = (st1, none))
    (h2 : Ps k = none ∨ (Qs k = none ∧ Es_magn k = none)) :
    run_buses G B Ps Qs Es_magn nY st (ks1 ++ k :: ks2)
      = (st1, some SolveError.notImplementedError) := by
  induction ks1 generalizing st with
  | nil =>
    have hst : st1 = st := (congrArg Prod.fst h1).symm
    rw [hst, List.nil_append, run_buses, update_bus,
      bus_correction_invalid G B Ps Qs Es_magn nY st k h2]
    rfl
  | cons a as ih =>
    rw [List.cons_append, run_buses]
    rw [run_buses] at h1
    cases hub : update_bus G B Ps Qs Es_magn nY st a with
    | ok st2 =>
      rw [hub] at h1
      exact ih st2 h1
    | error e =>
      rw [hub] at h1
      exact absurd (congrArg Prod.snd h1) (by simp)

/-- Witness for C3 (amended): the invalid bus 2 of the concrete example,
reached immediately (empty prefix), aborts the sweep with
`NotImplementedError`. -/
theorem C3_amended_lazy_witness :
    run_buses Gex Bex Psex Qsex Esmex 3 stex [] = (stex, none)
    ∧ (Psex 2 = none ∨ (Qsex 2 = none ∧ Esmex 2 = none))
    ∧ run_buses Gex Bex Psex Qsex Esmex 3 stex ([] ++ 2 :: [])
        = (stex, some SolveError.notImplementedError) :=
  ⟨rfl, Or.inl rfl,
    C3_amended_lazy Gex Bex Psex Qsex Esmex 3 stex stex [] 2 [] rfl (Or.inl rfl)⟩

/-- C1: the flat-start initialization is buggy for a nonzero slack angle.
The code computes `slack_E = magn * exp(ang)` — the *real* exponential, the
`1j` factor is missing — so at magnitude 1 and angle π/2 the slack voltage
is initialized to `(e^(π/2), 0)`, while the specified complex value
`1·e^(j·π/2)` has real part 0 and imaginary part 1.  The non-slack entries
are correctly set to `(1, 0)`. -/
theorem C1_flat_start_slack_bug :
    (initState (slack_E 1 (Real.pi / 2)).re (slack_E 1 (Real.pi / 2)).im).er 0
        = Real.exp (Real.pi / 2)
    ∧ (initState (slack_E 1 (Real.pi / 2)).re (slack_E 1 (Real.pi / 2)).im).ei 0 = 0
    ∧ (slack_E_specified 1 (Real.pi / 2)).re = 0
    ∧ (slack_E_specified 1 (Real.pi / 2)).im = 1
    ∧ Real.exp (Real.pi / 2) ≠ 0
    ∧ (initState (slack_E 1 (Real.pi / 2)).re (slack_E 1 (Real.pi / 2)).im).er 1 = 1
    ∧ (initState (slack_E 1 (Real.pi / 2)).re (slack_E 1 (Real.pi / 2)).im).ei 1 = 0 := by
  refine ⟨?_, ?_, ?_, ?_, Real.exp_ne_zero _, ?_, ?_⟩
  · rw [show (initState (slack_E 1 (Real.pi / 2)).re (slack_E 1 (Real.pi / 2)).im).er 0
        = (slack_E 1 (Real.pi / 2)).re from rfl, slack_E_re, one_mul]
  · rw [show (initState (slack_E 1 (Real.pi / 2)).re (slack_E 1 (Real.pi / 2)).im).ei 0
        = (slack_E 1 (Real.pi / 2)).im from rfl, slack_E_im]
  · rw [slack_E_specified_re, Real.cos_pi_div_two, mul_zero]
  · rw [slack_E_specified_im, Real.sin_pi_div_two, mul_one]
  · simp [initState]
  · simp [initState]

/-- C7: the sweeps never modify the slack entry, so after `solve` the slack
voltage equals whatever the initialization put there — but because of the
missing `1j` in the initialization, that value is `(magn·e^ang, 0)` rather
than the specified complex value: at magnitude 1 and angle π/2 the state
keeps imaginary part 0 while the specified value has imaginary part 1. -/
theorem C7_slack_invariance_bug :
    (∀ (G B : ℕ → ℕ → ℝ) (Ps Qs Es_magn : ℕ → Option ℝ) (magn ang : ℝ) (n n_iters : ℕ),
        (solve_notebook G B Ps Qs Es_magn magn ang n n_iters).1.er 0 = (slack_E magn ang).re
        ∧ (solve_notebook G B Ps Qs Es_magn magn ang n n_iters).1.ei 0 = (slack_E magn ang).im)
    ∧ (slack_E 1 (Real.pi / 2)).im = 0
    ∧ (slack_E_specified 1 (Real.pi / 2)).im = 1 := by
  refine ⟨?_, ?_, ?_⟩
  · intro G B Ps Qs Es_magn magn ang n n_iters
    have h := run_iters_slack G B Ps Qs Es_magn n
      (initState (slack_E magn ang).re (slack_E magn ang).im) n_iters
    rw [solve_notebook, solve_ward]
    refine ⟨h.1.trans ?_, h.2.trans ?_⟩
    · simp [initState]
    · simp [initState]
  · exact slack_E_im 1 (Real.pi / 2)
  · rw [slack_E_specified_im, Real.sin_pi_div_two, mul_one]

end Ward1956
